import Mathlib

/-!
# Verification of the LSTM character language-model notebook

Shallow embedding of the data-preparation and sampling code of
`Workshop/sessions/13_lstm.ipynb` (a Keras character-level LSTM example),
together with proofs of the specified properties.

The corpus is modelled as a `List Char`.  NumPy float arrays are modelled as
`List ℝ`; the transcendental functions (`np.log`, `np.exp`) become `Real.log`
and `Real.exp`, so the numeric definitions are noncomputable, and the
process-wide NumPy random-generator state consumed by
`np.random.multinomial` is modelled by an explicit uniform draw `u ∈ [0,1)`.
-/

open Filter Topology

/-- `chars = sorted(list(set(text)))`: the sorted list of distinct characters
of the corpus. `set` is modelled by `dedup`, `sorted` by `mergeSort` with the
character order. -/
def chars (text : List Char) : List Char :=
  text.dedup.mergeSort (fun a b => a ≤ b)

/-- `char2idx = dict((c, i) for i, c in enumerate(chars))`: since `chars` has
no duplicate, the dictionary sends a character to its (first) index in
`chars`.  On characters not in `chars` (where the Python dict would raise
`KeyError`) `indexOf` returns `(chars text).length`. -/
def char2idx (text : List Char) (c : Char) : ℕ :=
  (chars text).indexOf c

/-- `idx2char = dict((i, c) for i, c in enumerate(chars))`: index to
character; `none` models a `KeyError` on an out-of-range index. -/
def idx2char (text : List Char) (i : ℕ) : Option Char :=
  (chars text).get? i

/-- Python `range(0, stop, step)` for a positive `step`:
`[0, step, 2*step, ...]` while below `stop`; the count is `⌈stop/step⌉`. -/
def pythonRange (stop step : ℕ) : List ℕ :=
  List.range' 0 ((stop + step - 1) / step) step

/-- The windowing loop
`for i in range(0, len(text) - maxlen, step): sentences.append(text[i: i + maxlen])`.
The slice `text[i : i + maxlen]` is `(text.drop i).take maxlen`. -/
def sentences (text : List Char) (maxlen step : ℕ) : List (List Char) :=
  (pythonRange (text.length - maxlen) step).map (fun i => (text.drop i).take maxlen)

/-- The companion loop body `next_chars.append(text[i + maxlen])`; the index
stays in bounds (proved below), so the `getD` default is never produced. -/
def next_chars (text : List Char) (maxlen step : ℕ) : List Char :=
  (pythonRange (text.length - maxlen) step).map (fun i => text.getD (i + maxlen) default)

/-- One row of the one-hot vectorization: `np.zeros(V)` followed by the single
assignment `row[idx] = 1`, as booleans. -/
def oneHotRow (V idx : ℕ) : List Bool :=
  (List.replicate V false).set idx true

/-- `X[i, t, char2idx[char]] = 1` over `X = np.zeros((len(sentences), maxlen,
len(chars)), dtype=np.bool)`: each window becomes the list of one-hot rows of
its characters. -/
def X (text : List Char) (maxlen step : ℕ) : List (List (List Bool)) :=
  (sentences text maxlen step).map
    (fun s => s.map (fun ch => oneHotRow (chars text).length (char2idx text ch)))

/-- `y[i, char2idx[next_chars[i]]] = 1` over `y = np.zeros((len(sentences),
len(chars)), dtype=np.bool)`. -/
def y (text : List Char) (maxlen step : ℕ) : List (List Bool) :=
  (next_chars text maxlen step).map
    (fun ch => oneHotRow (chars text).length (char2idx text ch))

/-- `num_lstm_params(input_dim, num_cells)` from the notebook. -/
def num_lstm_params (input_dim num_cells : ℕ) : ℕ :=
  4 * (input_dim * num_cells + num_cells * num_cells + num_cells)

/-- `num_fc_params(input_dim, num_neurons)` from the notebook. -/
def num_fc_params (input_dim num_neurons : ℕ) : ℕ :=
  input_dim * num_neurons + num_neurons

/-- The composite `np.exp(np.log(x) / temperature)` on a nonnegative float
`x`.  IEEE semantics for `x = 0`: `np.log(0) = -inf`, `-inf / T = -inf` for
`T > 0`, and `np.exp(-inf) = 0`, so the composite maps `0` to `0`; for
`x > 0` it is `Real.exp (Real.log x / temperature)`. -/
noncomputable def expLogDiv (temperature x : ℝ) : ℝ :=
  if x = 0 then 0 else Real.exp (Real.log x / temperature)

/-- The temperature-transformed distribution built inside `sample`:
`preds = np.log(preds) / temperature; exp_preds = np.exp(preds);
preds = exp_preds / np.sum(exp_preds)`. -/
noncomputable def tempProbs (preds : List ℝ) (temperature : ℝ) : List ℝ :=
  (preds.map (expLogDiv temperature)).map
    (fun e => e / (preds.map (expLogDiv temperature)).sum)

/-- One categorical draw from the probability vector `l` by inversion of the
cumulative distribution at the uniform value `u`: the first index whose
cumulative probability exceeds `u`. -/
noncomputable def drawCat : List ℝ → ℝ → ℕ
  | [], _ => 0
  | p :: rest, u => if u < p then 0 else drawCat rest (u - p) + 1

/-- The flattened result of `np.random.multinomial(1, pvals, 1)` over `n`
categories when the drawn category is `k`: a 0/1 vector with a single `1` in
slot `k` (the leading dimension of the `(1, n)` array is dropped, as
`np.argmax` flattens it). -/
def multinomialOne (n k : ℕ) : List ℝ :=
  (List.range n).map (fun i => if i = k then (1 : ℝ) else 0)

/-- `np.argmax`: the first index attaining the maximum (`0` on the empty
list, where NumPy raises). -/
noncomputable def argmax : List ℝ → ℕ
  | [] => 0
  | x :: xs => if ∀ y ∈ xs, y ≤ x then 0 else argmax xs + 1

/-- The notebook's `sample(preds, temperature)` with the NumPy global
random-generator state made explicit as the uniform draw `u`:
log, divide by temperature, exponentiate, renormalize, draw
`probas = np.random.multinomial(1, preds, 1)` and `return np.argmax(probas)`. -/
noncomputable def sample (preds : List ℝ) (temperature u : ℝ) : ℕ :=
  argmax (multinomialOne preds.length (drawCat (tempProbs preds temperature) u))

/-- Modelled from the spec: "take the elementwise logarithm of the input
vector, divide by temperature, exponentiate, renormalize to a probability
distribution, then draw one sample from the resulting categorical
distribution" and return the sampled index. -/
noncomputable def sampleSpec (preds : List ℝ) (temperature u : ℝ) : ℕ :=
  drawCat (tempProbs preds temperature) u

/-- The transformed probability mass that `sample`'s internal distribution
puts on the argmax entry of the input. -/
noncomputable def argmaxMass (preds : List ℝ) (temperature : ℝ) : ℝ :=
  (tempProbs preds temperature).getD (argmax preds) 0

/-! ## Helper lemmas on `pythonRange` -/

lemma lt_ceil_div_iff {stop step j : ℕ} (h : 0 < step) :
    j < (stop + step - 1) / step ↔ step * j < stop := by
  rw [Nat.lt_iff_add_one_le, Nat.le_div_iff_mul_le h, Nat.mul_comm step j,
    Nat.add_mul, Nat.one_mul]
  have := Nat.mul_comm j step
  generalize j * step = a at *
  omega

lemma mem_pythonRange {stop step : ℕ} (h : 0 < step) {i : ℕ} :
    i ∈ pythonRange stop step ↔ ∃ j, i = step * j ∧ i < stop := by
  unfold pythonRange
  rw [List.mem_range']
  constructor
  · rintro ⟨j, hj, rfl⟩
    exact ⟨j, by rw [Nat.zero_add], by
      have := (lt_ceil_div_iff h).1 hj
      omega⟩
  · rintro ⟨j, rfl, hlt⟩
    exact ⟨j, (lt_ceil_div_iff h).2 hlt, by rw [Nat.zero_add]⟩

/-! ## C8 and C10 -/

lemma windowIndex_add_lt (text : List Char) (maxlen step : ℕ)
    (hlen : maxlen < text.length) (hstep : 0 < step) :
    ∀ i ∈ pythonRange (text.length - maxlen) step, i + maxlen < text.length := by
  intro i hi
  rcases (mem_pythonRange hstep).1 hi with ⟨j, rfl, hlt⟩
  omega

/-- C8: for every corpus longer than `maxlen` and every positive stride, each
index the windowing loop touches — the slice positions `i, …, i+maxlen-1` and
the target position `i + maxlen` — is strictly below `len(text)`. -/
theorem windowing_in_bounds (text : List Char) (maxlen step : ℕ)
    (hlen : maxlen < text.length) (hstep : 0 < step) :
    ∀ i ∈ pythonRange (text.length - maxlen) step, i + maxlen < text.length :=
  windowIndex_add_lt text maxlen step hlen hstep

theorem windowing_in_bounds_witness :
    4 < "the cat sat".toList.length ∧ 0 < 2 ∧
      ∀ i ∈ pythonRange ("the cat sat".toList.length - 4) 2,
        i + 4 < "the cat sat".toList.length :=
  ⟨by decide, by decide,
    windowing_in_bounds "the cat sat".toList 4 2 (by decide) (by decide)⟩

/-- C10: the parameter-count functions compute `4*(d*n + n*n + n)` and
`d*n + n`, and at the notebook's sizes they give `96256`, `16512`, `7611`,
matching the Keras summary. -/
theorem param_counts :
    (∀ d n : ℕ, num_lstm_params d n = 4 * (d * n + n * n + n) ∧
        num_fc_params d n = d * n + n) ∧
    num_lstm_params 59 128 = 96256 ∧ num_fc_params 128 128 = 16512 ∧
    num_fc_params 128 59 = 7611 :=
  ⟨fun _ _ => ⟨rfl, rfl⟩, by decide, by decide, by decide⟩

/-! ## C3: the vocabulary maps are mutually inverse -/

lemma chars_nodup (text : List Char) : (chars text).Nodup :=
  (List.mergeSort_perm text.dedup _).symm.nodup (List.nodup_dedup text)

lemma mem_chars_of_mem {text : List Char} {c : Char} (hc : c ∈ text) :
    c ∈ chars text :=
  (List.mergeSort_perm text.dedup _).mem_iff.2 (List.mem_dedup.2 hc)

/-- C3: `char2idx` and `idx2char` are mutually inverse over the sorted list
of distinct corpus characters: every corpus character round-trips through
`char2idx` then `idx2char`, and every in-range index round-trips through
`idx2char` then `char2idx`. -/
theorem vocab_round_trip (text : List Char) :
    (∀ c ∈ text, idx2char text (char2idx text c) = some c) ∧
    (∀ i : ℕ, i < (chars text).length →
      ∃ c : Char, idx2char text i = some c ∧ char2idx text c = i) := by
  constructor
  · intro c hc
    exact List.indexOf_get? (mem_chars_of_mem hc)
  · intro i hi
    refine ⟨(chars text).get ⟨i, hi⟩, List.get?_eq_get hi, ?_⟩
    exact List.get_indexOf (chars_nodup text) ⟨i, hi⟩

theorem vocab_round_trip_witness :
    idx2char "abca".toList (char2idx "abca".toList 'b') = some 'b' ∧
    ∃ c : Char, idx2char "abca".toList 1 = some c ∧ char2idx "abca".toList c = 1 :=
  ⟨(vocab_round_trip "abca".toList).1 'b' (by decide),
    (vocab_round_trip "abca".toList).2 1
      (by rw [chars, List.length_mergeSort]; decide)⟩

/-! ## C4: the windowing loop produces exactly the expected pairs -/

lemma slice_eq_map_range (l : List Char) (i m : ℕ) (h : i + m ≤ l.length) :
    (l.drop i).take m = (List.range m).map (fun t => l.getD (i + t) default) := by
  apply List.ext_getElem
  · simp only [List.length_take, List.length_drop, List.length_map, List.length_range]
    omega
  · intro t h1 h2
    simp only [List.length_take, List.length_drop] at h1
    have hn : i + t < l.length := by omega
    simp only [List.getElem_take, List.getElem_drop, List.getElem_map, List.getElem_range]
    exact (List.getD_eq_getElem _ _ hn).symm

lemma pythonRange_eq_map (stop step : ℕ) :
    pythonRange stop step =
      (List.range (pythonRange stop step).length).map (fun j => step * j) := by
  apply List.ext_getElem
  · simp
  · intro j h1 h2
    simp [pythonRange, List.getElem_range']

lemma lt_pythonRange_length_iff {stop step : ℕ} (h : 0 < step) (j : ℕ) :
    j < (pythonRange stop step).length ↔ step * j < stop := by
  simp only [pythonRange, List.length_range']
  exact lt_ceil_div_iff h

/-- C4: the pairs produced by the windowing loop are exactly
`(text[i .. i+maxlen-1], text[i+maxlen])` for `i = 0, step, 2*step, …` while
`i < len(text) - maxlen`, in that order: the zipped `(sentences, next_chars)`
lists are the image of the loop's index list, that index list is
`[step*0, step*1, …]`, and its length cuts off exactly at
`step*j < len(text) - maxlen`. -/
theorem windowing_pairs (text : List Char) (maxlen step : ℕ)
    (hlen : maxlen < text.length) (hstep : 0 < step) :
    (sentences text maxlen step).zip (next_chars text maxlen step) =
      (pythonRange (text.length - maxlen) step).map
        (fun i => ((List.range maxlen).map (fun t => text.getD (i + t) default),
          text.getD (i + maxlen) default)) ∧
    pythonRange (text.length - maxlen) step =
      (List.range (pythonRange (text.length - maxlen) step).length).map
        (fun j => step * j) ∧
    (∀ j : ℕ, j < (pythonRange (text.length - maxlen) step).length ↔
      step * j < text.length - maxlen) := by
  refine ⟨?_, pythonRange_eq_map _ _, fun j => lt_pythonRange_length_iff hstep j⟩
  unfold sentences next_chars
  rw [List.zip_map']
  apply List.map_congr_left
  intro i hi
  have hb := windowIndex_add_lt text maxlen step hlen hstep i hi
  rw [slice_eq_map_range text i maxlen (by omega)]

theorem windowing_pairs_witness :
    ((sentences "the cat sat".toList 4 2).zip (next_chars "the cat sat".toList 4 2) =
      [("the ".toList, 'c'), ("e ca".toList, 't'),
        ("cat ".toList, 's'), ("t sa".toList, 't')]) ∧
    (sentences "the cat sat".toList 4 2).zip (next_chars "the cat sat".toList 4 2) =
      (pythonRange ("the cat sat".toList.length - 4) 2).map
        (fun i => ((List.range 4).map (fun t => "the cat sat".toList.getD (i + t) default),
          "the cat sat".toList.getD (i + 4) default)) :=
  ⟨by decide, (windowing_pairs "the cat sat".toList 4 2 (by decide) (by decide)).1⟩

/-! ## C5: one-hot vectorization -/

lemma sentence_length (text : List Char) (maxlen step : ℕ)
    (hlen : maxlen < text.length) (hstep : 0 < step) :
    ∀ s ∈ sentences text maxlen step, s.length = maxlen := by
  intro s hs
  rcases List.mem_map.1 hs with ⟨i, hi, rfl⟩
  have := windowIndex_add_lt text maxlen step hlen hstep i hi
  simp only [List.length_take, List.length_drop]
  omega

lemma sentence_chars_mem (text : List Char) (maxlen step : ℕ) :
    ∀ s ∈ sentences text maxlen step, ∀ ch ∈ s, ch ∈ text := by
  intro s hs ch hch
  rcases List.mem_map.1 hs with ⟨i, _, rfl⟩
  exact List.drop_subset i text (List.take_subset maxlen _ hch)

lemma next_chars_mem (text : List Char) (maxlen step : ℕ)
    (hlen : maxlen < text.length) (hstep : 0 < step) :
    ∀ ch ∈ next_chars text maxlen step, ch ∈ text := by
  intro ch hch
  rcases List.mem_map.1 hch with ⟨i, hi, rfl⟩
  have hb := windowIndex_add_lt text maxlen step hlen hstep i hi
  rw [List.getD_eq_getElem _ _ hb]
  exact List.getElem_mem hb

lemma char2idx_lt {text : List Char} {ch : Char} (h : ch ∈ text) :
    char2idx text ch < (chars text).length :=
  List.indexOf_lt_length.2 (mem_chars_of_mem h)

lemma oneHotRow_length (V idx : ℕ) : (oneHotRow V idx).length = V := by
  simp [oneHotRow]

lemma oneHotRow_getD {V idx c : ℕ} (hc : c < V) :
    ((oneHotRow V idx).getD c false = true ↔ c = idx) := by
  unfold oneHotRow
  rw [List.getD_eq_getElem _ _ (by simpa using hc), List.getElem_set]
  by_cases h : idx = c
  · simp [h]
  · simp only [if_neg h, List.getElem_replicate]
    exact iff_of_false (by simp) (fun hck => h hck.symm)

lemma getD_map_lt {α β : Type} (l : List α) (f : α → β) {i : ℕ} (hi : i < l.length)
    (d : β) (d' : α) : (l.map f).getD i d = f (l.getD i d') := by
  rw [List.getD_eq_getElem _ _ (by simpa using hi), List.getD_eq_getElem _ _ hi,
    List.getElem_map]

/-- C5: the vectorization produces `X` of shape
`(len(sentences), maxlen, len(chars))` and `y` of shape
`(len(sentences), len(chars))`, the row `X[i, t, :]` is one-hot with its `1`
exactly at `char2idx` of the `t`-th character of window `i`, and the row
`y[i, :]` is one-hot with its `1` exactly at `char2idx` of the next character
of window `i`. -/
theorem vectorization_one_hot (text : List Char) (maxlen step : ℕ)
    (hlen : maxlen < text.length) (hstep : 0 < step) :
    (X text maxlen step).length = (sentences text maxlen step).length ∧
    (y text maxlen step).length = (sentences text maxlen step).length ∧
    (∀ row ∈ X text maxlen step, row.length = maxlen ∧
      ∀ r ∈ row, r.length = (chars text).length) ∧
    (∀ r ∈ y text maxlen step, r.length = (chars text).length) ∧
    (∀ i < (sentences text maxlen step).length, ∀ t < maxlen,
      ∀ c < (chars text).length,
        ((((X text maxlen step).getD i []).getD t []).getD c false = true ↔
          c = char2idx text
            (((sentences text maxlen step).getD i []).getD t default))) ∧
    (∀ i < (sentences text maxlen step).length, ∀ c < (chars text).length,
      (((y text maxlen step).getD i []).getD c false = true ↔
        c = char2idx text ((next_chars text maxlen step).getD i default))) := by
  have hylen : (next_chars text maxlen step).length = (sentences text maxlen step).length := by
    simp [sentences, next_chars]
  refine ⟨by simp [X], by simp [y, hylen], ?_, ?_, ?_, ?_⟩
  · intro row hrow
    rcases List.mem_map.1 hrow with ⟨s, hs, rfl⟩
    refine ⟨by simpa using sentence_length text maxlen step hlen hstep s hs, ?_⟩
    intro r hr
    rcases List.mem_map.1 hr with ⟨ch, _, rfl⟩
    exact oneHotRow_length _ _
  · intro r hr
    rcases List.mem_map.1 hr with ⟨ch, _, rfl⟩
    exact oneHotRow_length _ _
  · intro i hi t ht c hc
    have hs : ((sentences text maxlen step).getD i []) ∈ sentences text maxlen step := by
      rw [List.getD_eq_getElem _ _ hi]
      exact List.getElem_mem hi
    have hslen : ((sentences text maxlen step).getD i []).length = maxlen :=
      sentence_length text maxlen step hlen hstep _ hs
    have ht' : t < ((sentences text maxlen step).getD i []).length := by omega
    rw [X, getD_map_lt _ _ hi _ [], getD_map_lt _ _ ht' _ default]
    have hch : (((sentences text maxlen step).getD i []).getD t default) ∈ text :=
      sentence_chars_mem text maxlen step _ hs _ (by
        rw [List.getD_eq_getElem _ _ ht']
        exact List.getElem_mem ht')
    exact oneHotRow_getD hc
  · intro i hi c hc
    have hi' : i < (next_chars text maxlen step).length := by omega
    rw [y, getD_map_lt _ _ hi' _ default]
    exact oneHotRow_getD hc

theorem vectorization_one_hot_witness :
    4 < "the cat sat".toList.length ∧ 0 < 2 ∧
      (X "the cat sat".toList 4 2).length = (sentences "the cat sat".toList 4 2).length ∧
      (y "the cat sat".toList 4 2).length = (sentences "the cat sat".toList 4 2).length :=
  ⟨by decide, by decide,
    (vectorization_one_hot "the cat sat".toList 4 2 (by decide) (by decide)).1,
    (vectorization_one_hot "the cat sat".toList 4 2 (by decide) (by decide)).2.1⟩

/-! ## Sampler lemmas -/

lemma expLogDiv_pos {temperature x : ℝ} (hx : 0 < x) : 0 < expLogDiv temperature x := by
  rw [expLogDiv, if_neg hx.ne']
  exact Real.exp_pos _

lemma sum_map_div (l : List ℝ) (c : ℝ) :
    (l.map (fun x => x / c)).sum = l.sum / c := by
  induction l with
  | nil => simp
  | cons a l ih => simp [ih, add_div]

lemma tempProbs_length (preds : List ℝ) (temperature : ℝ) :
    (tempProbs preds temperature).length = preds.length := by
  simp [tempProbs]

lemma exp_preds_sum_pos {preds : List ℝ} (temperature : ℝ)
    (hp : ∀ x ∈ preds, 0 < x) (hne : preds ≠ []) :
    0 < (preds.map (expLogDiv temperature)).sum := by
  apply List.sum_pos
  · intro e he
    rcases List.mem_map.1 he with ⟨x, hx, rfl⟩
    exact expLogDiv_pos (hp x hx)
  · simpa using hne

lemma tempProbs_sum_eq_one {preds : List ℝ} (temperature : ℝ)
    (hp : ∀ x ∈ preds, 0 < x) (hne : preds ≠ []) :
    (tempProbs preds temperature).sum = 1 := by
  rw [tempProbs, sum_map_div]
  exact div_self (exp_preds_sum_pos temperature hp hne).ne'

lemma drawCat_lt_length {l : List ℝ} {u : ℝ} (hu0 : 0 ≤ u) (hu : u < l.sum) :
    drawCat l u < l.length := by
  induction l generalizing u with
  | nil =>
    simp only [List.sum_nil] at hu
    exact absurd (hu0.trans_lt hu) (lt_irrefl 0)
  | cons p rest ih =>
    rw [drawCat]
    by_cases h : u < p
    · simp [h]
    · rw [if_neg h]
      push_neg at h
      rw [List.sum_cons] at hu
      have := ih (by linarith : 0 ≤ u - p) (by linarith : u - p < rest.sum)
      simpa using Nat.succ_lt_succ this

lemma argmax_lt_length {l : List ℝ} (h : l ≠ []) : argmax l < l.length := by
  induction l with
  | nil => exact absurd rfl h
  | cons x xs ih =>
    rw [argmax]
    by_cases hall : ∀ b ∈ xs, b ≤ x
    · rw [if_pos hall]
      simp
    · rw [if_neg hall]
      have hxs : xs ≠ [] := by
        rintro rfl
        exact hall (by simp)
      simpa using Nat.succ_lt_succ (ih hxs)

lemma argmax_eq_of_oneHot {l : List ℝ} {k : ℕ} (hk : k < l.length)
    (h1 : l.getD k 0 = 1) (h0 : ∀ j < l.length, j ≠ k → l.getD j 0 = 0) :
    argmax l = k := by
  induction l generalizing k with
  | nil => simp at hk
  | cons x xs ih =>
    cases k with
    | zero =>
      have hx : x = 1 := by simpa using h1
      have hall : ∀ b ∈ xs, b ≤ x := by
        intro b hb
        rcases List.mem_iff_getElem.1 hb with ⟨j, hj, rfl⟩
        have h := h0 (j + 1) (by simpa using Nat.succ_lt_succ hj) (Nat.succ_ne_zero j)
        rw [List.getD_cons_succ, List.getD_eq_getElem _ _ hj] at h
        rw [h, hx]
        norm_num
      rw [argmax, if_pos hall]
    | succ m =>
      have hx : x = 0 := by simpa using h0 0 (by simp) (by simp)
      have hm : m < xs.length := by simpa [Nat.succ_lt_succ_iff] using hk
      have h1' : xs.getD m 0 = 1 := by simpa using h1
      have h0' : ∀ j < xs.length, j ≠ m → xs.getD j 0 = 0 := by
        intro j hj hjm
        have := h0 (j + 1) (by simpa using Nat.succ_lt_succ hj) (by simpa using hjm)
        simpa using this
      have hnall : ¬ ∀ b ∈ xs, b ≤ x := by
        intro hall
        have h1mem : (1 : ℝ) ∈ xs := by
          rw [← h1', List.getD_eq_getElem _ _ hm]
          exact List.getElem_mem hm
        have := hall 1 h1mem
        rw [hx] at this
        linarith
      rw [argmax, if_neg hnall, ih hm h1' h0']

lemma multinomialOne_length (n k : ℕ) : (multinomialOne n k).length = n := by
  simp [multinomialOne]

lemma multinomialOne_getD {n k j : ℕ} (hj : j < n) :
    (multinomialOne n k).getD j 0 = if j = k then (1 : ℝ) else 0 := by
  rw [multinomialOne, getD_map_lt _ _ (by simpa using hj) _ 0]
  have hr : (List.range n).getD j 0 = j := by
    rw [List.getD_eq_getElem _ _ (by simpa using hj)]
    simp
  rw [hr]

lemma argmax_multinomialOne {n k : ℕ} (hk : k < n) :
    argmax (multinomialOne n k) = k := by
  apply argmax_eq_of_oneHot
  · simpa [multinomialOne_length] using hk
  · rw [multinomialOne_getD hk]
    simp
  · intro j hj hjk
    have hj' : j < n := by simpa [multinomialOne_length] using hj
    rw [multinomialOne_getD hj', if_neg hjk]

/-! ## C1: `sample` computes the spec's algorithm -/

/-- C1: for positive inputs, positive temperature and any uniform draw
`u ∈ [0,1)`, the notebook's `sample` — which takes the argmax of a single
multinomial draw over the renormalized `exp(log(preds)/T)` vector — returns
exactly the index drawn from that categorical distribution, i.e. it computes
the spec's log / divide-by-temperature / exponentiate / renormalize /
single-categorical-draw algorithm. -/
theorem sample_computes_spec (preds : List ℝ) (temperature u : ℝ)
    (hp : ∀ x ∈ preds, 0 < x) (hT : 0 < temperature)
    (hu0 : 0 ≤ u) (hu1 : u < 1) :
    sample preds temperature u = sampleSpec preds temperature u := by
  rcases eq_or_ne preds [] with rfl | hne
  · simp [sample, sampleSpec, tempProbs, drawCat, multinomialOne, argmax]
  · rw [sample, sampleSpec]
    apply argmax_multinomialOne
    rw [← tempProbs_length preds temperature]
    apply drawCat_lt_length hu0
    rw [tempProbs_sum_eq_one temperature hp hne]
    exact hu1

theorem sample_computes_spec_witness :
    (∀ x ∈ [(1 : ℝ), 3], 0 < x) ∧ (0 : ℝ) < 1 ∧ (0 : ℝ) ≤ 0 ∧ (0 : ℝ) < 1 ∧
      sample [1, 3] 1 0 = sampleSpec [1, 3] 1 0 :=
  ⟨by norm_num, by norm_num, le_refl 0, by norm_num,
    sample_computes_spec [1, 3] 1 0 (by norm_num) (by norm_num) (le_refl 0) (by norm_num)⟩

/-! ## C2: one-hot inputs are sampled deterministically -/

lemma oneHot_sum {l : List ℝ} {k : ℕ} (hk : k < l.length)
    (h1 : l.getD k 0 = 1) (h0 : ∀ j < l.length, j ≠ k → l.getD j 0 = 0) :
    l.sum = 1 := by
  induction l generalizing k with
  | nil => simp at hk
  | cons x xs ih =>
    cases k with
    | zero =>
      have hx : x = 1 := by simpa using h1
      have hxs : xs.sum = 0 := by
        apply List.sum_eq_zero
        intro b hb
        rcases List.mem_iff_getElem.1 hb with ⟨j, hj, rfl⟩
        have h := h0 (j + 1) (by simpa using Nat.succ_lt_succ hj) (Nat.succ_ne_zero j)
        rw [List.getD_cons_succ, List.getD_eq_getElem _ _ hj] at h
        exact h
      simp [hx, hxs]
    | succ m =>
      have hx : x = 0 := by simpa using h0 0 (by simp) (by simp)
      have hm : m < xs.length := by simpa [Nat.succ_lt_succ_iff] using hk
      have h1' : xs.getD m 0 = 1 := by simpa using h1
      have h0' : ∀ j < xs.length, j ≠ m → xs.getD j 0 = 0 := by
        intro j hj hjm
        have := h0 (j + 1) (by simpa using Nat.succ_lt_succ hj) (by simpa using hjm)
        simpa using this
      simp [hx, ih hm h1' h0']

lemma drawCat_oneHot {l : List ℝ} {k : ℕ} {u : ℝ} (hk : k < l.length)
    (h1 : l.getD k 0 = 1) (h0 : ∀ j < l.length, j ≠ k → l.getD j 0 = 0)
    (hu0 : 0 ≤ u) (hu1 : u < 1) :
    drawCat l u = k := by
  induction l generalizing k u with
  | nil => simp at hk
  | cons x xs ih =>
    cases k with
    | zero =>
      have hx : x = 1 := by simpa using h1
      have hlt : u < x := by rw [hx]; exact hu1
      rw [drawCat, if_pos hlt]
    | succ m =>
      have hx : x = 0 := by simpa using h0 0 (by simp) (by simp)
      have hm : m < xs.length := by simpa [Nat.succ_lt_succ_iff] using hk
      have h1' : xs.getD m 0 = 1 := by simpa using h1
      have h0' : ∀ j < xs.length, j ≠ m → xs.getD j 0 = 0 := by
        intro j hj hjm
        have := h0 (j + 1) (by simpa using Nat.succ_lt_succ hj) (by simpa using hjm)
        simpa using this
      have hnot : ¬ u < x := by rw [hx]; linarith
      have hu0' : 0 ≤ u - x := by rw [hx, sub_zero]; exact hu0
      have hu1' : u - x < 1 := by rw [hx, sub_zero]; exact hu1
      have hrec := ih hm h1' h0' hu0' hu1'
      rw [drawCat, if_neg hnot, hrec]

lemma tempProbs_oneHot {preds : List ℝ} {k : ℕ} (temperature : ℝ)
    (hk : k < preds.length) (h1 : preds.getD k 0 = 1)
    (h0 : ∀ j < preds.length, j ≠ k → preds.getD j 0 = 0) :
    (tempProbs preds temperature).getD k 0 = 1 ∧
    ∀ j < (tempProbs preds temperature).length, j ≠ k →
      (tempProbs preds temperature).getD j 0 = 0 := by
  have hE1 : (preds.map (expLogDiv temperature)).getD k 0 = 1 := by
    rw [getD_map_lt _ _ hk _ 0, h1]
    simp [expLogDiv]
  have hE0 : ∀ j < preds.length, j ≠ k →
      (preds.map (expLogDiv temperature)).getD j 0 = 0 := by
    intro j hj hjk
    rw [getD_map_lt _ _ hj _ 0, h0 j hj hjk]
    simp [expLogDiv]
  have hEsum : (preds.map (expLogDiv temperature)).sum = 1 :=
    oneHot_sum (by simpa using hk) hE1 (by simpa using hE0)
  constructor
  · rw [tempProbs, getD_map_lt _ _ (by simpa using hk) _ 0, hE1, hEsum, div_one]
  · intro j hj hjk
    have hj' : j < preds.length := by simpa [tempProbs_length] using hj
    rw [tempProbs, getD_map_lt _ _ (by simpa using hj') _ 0, hE0 j hj' hjk, hEsum]
    simp

/-- C2: if the input distribution is one-hot — entry `k` is `1` and every
other entry is `0` — then for every positive temperature and every possible
uniform draw `u ∈ [0,1)` the sampler returns `k`.  (The zero entries go
through `log 0 = -inf`, `exp(-inf) = 0` and keep probability zero.) -/
theorem sample_one_hot (preds : List ℝ) (k : ℕ) (temperature u : ℝ)
    (hk : k < preds.length) (h1 : preds.getD k 0 = 1)
    (h0 : ∀ j < preds.length, j ≠ k → preds.getD j 0 = 0)
    (hT : 0 < temperature) (hu0 : 0 ≤ u) (hu1 : u < 1) :
    sample preds temperature u = k := by
  obtain ⟨hP1, hP0⟩ := tempProbs_oneHot temperature hk h1 h0
  have hdraw : drawCat (tempProbs preds temperature) u = k :=
    drawCat_oneHot (by simpa [tempProbs_length] using hk) hP1 hP0 hu0 hu1
  rw [sample, hdraw]
  exact argmax_multinomialOne hk

theorem sample_one_hot_witness :
    1 < ([(0 : ℝ), 1, 0]).length ∧ ([(0 : ℝ), 1, 0]).getD 1 0 = 1 ∧
      sample [(0 : ℝ), 1, 0] (1 / 2) (3 / 4) = 1 :=
  ⟨by norm_num, by norm_num,
    sample_one_hot [(0 : ℝ), 1, 0] 1 (1 / 2) (3 / 4) (by norm_num) (by norm_num)
      (by
        intro j hj hjk
        have hj3 : j < 3 := by simpa using hj
        interval_cases j <;> simp_all)
      (by norm_num) (by norm_num) (by norm_num)⟩

/-! ## C9: the sampled index is in range -/

/-- C9: for a non-empty positive input and any draw, `sample` returns an
index below `len(preds)`; hence whenever `preds` has the vocabulary's length,
the generation loop's lookup `idx2char[sample(preds, t)]` is defined. -/
theorem sample_index_in_range (preds : List ℝ) (temperature u : ℝ)
    (hne : preds ≠ []) (hp : ∀ x ∈ preds, 0 < x) (hT : 0 < temperature)
    (hu0 : 0 ≤ u) (hu1 : u < 1) :
    sample preds temperature u < preds.length ∧
    ∀ text : List Char, preds.length = (chars text).length →
      (idx2char text (sample preds temperature u)).isSome := by
  have hmlen : ∀ d : ℕ, (multinomialOne preds.length d).length = preds.length :=
    fun d => multinomialOne_length _ _
  have hlen : 0 < preds.length := List.length_pos.2 hne
  have hnnil : multinomialOne preds.length
      (drawCat (tempProbs preds temperature) u) ≠ [] := by
    intro hnil
    have := congrArg List.length hnil
    rw [hmlen] at this
    simp only [List.length_nil] at this
    omega
  have hlt : sample preds temperature u < preds.length := by
    rw [sample]
    have h := argmax_lt_length hnnil
    rwa [hmlen] at h
  refine ⟨hlt, ?_⟩
  intro text hlen2
  rw [idx2char, List.get?_eq_get (by omega)]
  simp

theorem sample_index_in_range_witness :
    sample [(1 : ℝ), 3] 1 (1 / 2) < ([(1 : ℝ), 3]).length ∧
      (idx2char "ab".toList (sample [(1 : ℝ), 3] 1 (1 / 2))).isSome :=
  ⟨(sample_index_in_range [(1 : ℝ), 3] 1 (1 / 2) (by simp) (by norm_num)
      (by norm_num) (by norm_num) (by norm_num)).1,
    (sample_index_in_range [(1 : ℝ), 3] 1 (1 / 2) (by simp) (by norm_num)
      (by norm_num) (by norm_num) (by norm_num)).2 "ab".toList
      (by rw [chars, List.length_mergeSort]; decide)⟩

/-! ## C7: determinism given the generator state, but RNG dependence -/

lemma expLogDiv_one_one : expLogDiv 1 (1 : ℝ) = 1 := by
  simp [expLogDiv]

lemma expLogDiv_one_three : expLogDiv 1 (3 : ℝ) = 3 := by
  rw [expLogDiv, if_neg (by norm_num : (3 : ℝ) ≠ 0), div_one,
    Real.exp_log (by norm_num : (0 : ℝ) < 3)]

lemma tempProbs_one_three : tempProbs [(1 : ℝ), 3] 1 = [1 / 4, 3 / 4] := by
  simp only [tempProbs, List.map_cons, List.map_nil, expLogDiv_one_one,
    expLogDiv_one_three, List.sum_cons, List.sum_nil]
  norm_num

lemma tempProbs_one_one : tempProbs [(1 : ℝ), 1] 1 = [1 / 2, 1 / 2] := by
  simp only [tempProbs, List.map_cons, List.map_nil, expLogDiv_one_one,
    List.sum_cons, List.sum_nil]
  norm_num

/-- C7 counterexample: `sample` is not independent of state outside its
arguments `(preds, temperature)`: with the ambient random-generator draw made
explicit, two calls with identical arguments but different generator values
return different indices. -/
theorem sample_rng_counterexample :
    sample [(1 : ℝ), 3] 1 0 ≠ sample [(1 : ℝ), 3] 1 (7 / 8) := by
  have h0 : sample [(1 : ℝ), 3] 1 0 = 0 := by
    rw [sample, tempProbs_one_three, drawCat,
      if_pos (by norm_num : (0 : ℝ) < 1 / 4)]
    exact argmax_multinomialOne (by norm_num)
  have h1 : sample [(1 : ℝ), 3] 1 (7 / 8) = 1 := by
    rw [sample, tempProbs_one_three, drawCat,
      if_neg (by norm_num : ¬ (7 : ℝ) / 8 < 1 / 4), drawCat,
      if_pos (by norm_num : (7 : ℝ) / 8 - 1 / 4 < 3 / 4)]
    exact argmax_multinomialOne (by norm_num)
  rw [h0, h1]
  norm_num

/-- C7 amended: `sample` is deterministic as a function of
`(preds, temperature)` together with the ambient random-generator draw — two
calls with identical arguments and identical generator state return the same
index — but it does read that state: for identical `(preds, temperature)`
there exist in-range generator draws returning different indices, so the
function is not independent of state outside its arguments. -/
theorem sample_deterministic_given_rng :
    (∀ (preds : List ℝ) (temperature u : ℝ),
      sample preds temperature u = sample preds temperature u) ∧
    ∃ u₁ u₂ : ℝ, 0 ≤ u₁ ∧ u₁ < 1 ∧ 0 ≤ u₂ ∧ u₂ < 1 ∧
      sample [(1 : ℝ), 1] 1 u₁ ≠ sample [(1 : ℝ), 1] 1 u₂ := by
  refine ⟨fun _ _ _ => rfl, 0, 1 / 2, le_refl 0, by norm_num, by norm_num,
    by norm_num, ?_⟩
  have h0 : sample [(1 : ℝ), 1] 1 0 = 0 := by
    rw [sample, tempProbs_one_one, drawCat,
      if_pos (by norm_num : (0 : ℝ) < 1 / 2)]
    exact argmax_multinomialOne (by norm_num)
  have h1 : sample [(1 : ℝ), 1] 1 (1 / 2) = 1 := by
    rw [sample, tempProbs_one_one, drawCat,
      if_neg (by norm_num : ¬ (1 : ℝ) / 2 < 1 / 2), drawCat,
      if_pos (by norm_num : (1 : ℝ) / 2 - 1 / 2 < 1 / 2)]
    exact argmax_multinomialOne (by norm_num)
  rw [h0, h1]
  norm_num

/-! ## C6: temperature sharpens toward the argmax and flattens toward uniform -/

lemma expLogDiv_eq_rpow {temperature x : ℝ} (hx : 0 < x) :
    expLogDiv temperature x = x ^ temperature⁻¹ := by
  rw [expLogDiv, if_neg hx.ne', Real.rpow_def_of_pos hx, div_eq_mul_inv]

lemma argmax_getD_ge (l : List ℝ) : ∀ x ∈ l, x ≤ l.getD (argmax l) 0 := by
  induction l with
  | nil => simp
  | cons a xs ih =>
    rw [argmax]
    by_cases hall : ∀ b ∈ xs, b ≤ a
    · rw [if_pos hall]
      intro x hx
      rcases List.mem_cons.1 hx with rfl | hx
      · simp
      · simpa using hall x hx
    · rw [if_neg hall]
      intro x hx
      push_neg at hall
      obtain ⟨b, hb, hba⟩ := hall
      rw [List.getD_cons_succ]
      rcases List.mem_cons.1 hx with rfl | hx
      · exact le_of_lt (lt_of_lt_of_le hba (ih b hb))
      · exact ih x hx

lemma argmax_getD_mem {l : List ℝ} (h : l ≠ []) : l.getD (argmax l) 0 ∈ l := by
  have hlt := argmax_lt_length h
  rw [List.getD_eq_getElem _ _ hlt]
  exact List.getElem_mem hlt

lemma rpow_cross_le {x pm β β' : ℝ} (hx : 0 < x) (hxm : x ≤ pm) (hββ' : β ≤ β') :
    pm ^ β * x ^ β' ≤ pm ^ β' * x ^ β := by
  have hpm : 0 < pm := lt_of_lt_of_le hx hxm
  have hxs : x ^ β * x ^ (β' - β) = x ^ β' := by
    rw [← Real.rpow_add hx]
    congr 1
    ring
  have hps : pm ^ β * pm ^ (β' - β) = pm ^ β' := by
    rw [← Real.rpow_add hpm]
    congr 1
    ring
  have key : x ^ (β' - β) ≤ pm ^ (β' - β) :=
    Real.rpow_le_rpow hx.le hxm (by linarith)
  calc pm ^ β * x ^ β' = (pm ^ β * x ^ β) * x ^ (β' - β) := by rw [← hxs]; ring
    _ ≤ (pm ^ β * x ^ β) * pm ^ (β' - β) := by
        apply mul_le_mul_of_nonneg_left key
        positivity
    _ = pm ^ β' * x ^ β := by rw [← hps]; ring

lemma rpow_cross_lt {x pm β β' : ℝ} (hx : 0 < x) (hxm : x < pm) (hββ' : β < β') :
    pm ^ β * x ^ β' < pm ^ β' * x ^ β := by
  have hpm : 0 < pm := lt_trans hx hxm
  have hxs : x ^ β * x ^ (β' - β) = x ^ β' := by
    rw [← Real.rpow_add hx]
    congr 1
    ring
  have hps : pm ^ β * pm ^ (β' - β) = pm ^ β' := by
    rw [← Real.rpow_add hpm]
    congr 1
    ring
  have key : x ^ (β' - β) < pm ^ (β' - β) :=
    Real.rpow_lt_rpow hx.le hxm (by linarith)
  calc pm ^ β * x ^ β' = (pm ^ β * x ^ β) * x ^ (β' - β) := by rw [← hxs]; ring
    _ < (pm ^ β * x ^ β) * pm ^ (β' - β) := by
        apply mul_lt_mul_of_pos_left key
        positivity
    _ = pm ^ β' * x ^ β := by rw [← hps]; ring

lemma rpow_sum_pos {l : List ℝ} (hp : ∀ x ∈ l, 0 < x) (hne : l ≠ []) (β : ℝ) :
    0 < (l.map (fun x => x ^ β)).sum := by
  apply List.sum_pos
  · intro e he
    rcases List.mem_map.1 he with ⟨x, hx, rfl⟩
    exact Real.rpow_pos_of_pos (hp x hx) β
  · simpa using hne

lemma ratio_strict_mono {l : List ℝ} {pm β β' : ℝ} (hp : ∀ x ∈ l, 0 < x)
    (hne : l ≠ []) (hpm : ∀ x ∈ l, x ≤ pm) (hβ : 0 < β) (hββ' : β < β')
    (hex : ∃ x ∈ l, x < pm) :
    pm ^ β / (l.map (fun x => x ^ β)).sum <
      pm ^ β' / (l.map (fun x => x ^ β')).sum := by
  rw [div_lt_div_iff (rpow_sum_pos hp hne β) (rpow_sum_pos hp hne β')]
  rw [← List.sum_map_mul_left, ← List.sum_map_mul_left]
  apply List.sum_lt_sum
  · intro x hx
    exact rpow_cross_le (hp x hx) (hpm x hx) hββ'.le
  · obtain ⟨x, hx, hxlt⟩ := hex
    exact ⟨x, hx, rpow_cross_lt (hp x hx) hxlt hββ'⟩

lemma argmaxMass_eq {preds : List ℝ} (temperature : ℝ)
    (hp : ∀ x ∈ preds, 0 < x) (hne : preds ≠ []) :
    argmaxMass preds temperature =
      (preds.getD (argmax preds) 0) ^ temperature⁻¹ /
        (preds.map (fun x => x ^ temperature⁻¹)).sum := by
  have hm := argmax_lt_length hne
  have hmap : preds.map (expLogDiv temperature) =
      preds.map (fun x => x ^ temperature⁻¹) :=
    List.map_congr_left (fun x hx => expLogDiv_eq_rpow (hp x hx))
  rw [argmaxMass, tempProbs, hmap,
    getD_map_lt _ _ (by simpa using hm) _ 0, getD_map_lt _ _ hm _ 0]

lemma tendsto_expLogDiv_atTop {x : ℝ} (hx : 0 < x) :
    Tendsto (fun temperature => expLogDiv temperature x) atTop (𝓝 1) := by
  have h1 : Tendsto (fun temperature : ℝ => Real.log x / temperature) atTop (𝓝 0) :=
    tendsto_const_nhds.div_atTop tendsto_id
  have h2 := (Real.continuous_exp.tendsto 0).comp h1
  rw [Real.exp_zero] at h2
  exact h2.congr (fun T => by simp [Function.comp, expLogDiv, hx.ne'])

lemma tendsto_sum_expLogDiv {l : List ℝ} (hp : ∀ x ∈ l, 0 < x) :
    Tendsto (fun temperature => (l.map (expLogDiv temperature)).sum) atTop
      (𝓝 (l.length : ℝ)) := by
  induction l with
  | nil => simpa using tendsto_const_nhds
  | cons a xs ih =>
    have ha := tendsto_expLogDiv_atTop (hp a (by simp))
    have hxs := ih (fun x hx => hp x (List.mem_cons_of_mem a hx))
    have hsum := ha.add hxs
    have hcast : ((a :: xs).length : ℝ) = 1 + (xs.length : ℝ) := by
      simp only [List.length_cons]
      push_cast
      ring
    rw [hcast]
    exact hsum.congr (fun T => by simp [List.sum_cons])

lemma tendsto_tempProbs_uniform {preds : List ℝ} (hp : ∀ x ∈ preds, 0 < x)
    (hne : preds ≠ []) {j : ℕ} (hj : j < preds.length) :
    Tendsto (fun temperature => (tempProbs preds temperature).getD j 0) atTop
      (𝓝 (1 / (preds.length : ℝ))) := by
  have hxj : 0 < preds.getD j 0 := by
    rw [List.getD_eq_getElem _ _ hj]
    exact hp _ (List.getElem_mem hj)
  have hlen : ((preds.length : ℝ)) ≠ 0 := by
    have := List.length_pos.2 hne
    exact Nat.cast_ne_zero.2 (by omega)
  have hdiv := (tendsto_expLogDiv_atTop hxj).div (tendsto_sum_expLogDiv hp) hlen
  exact hdiv.congr (fun T => by
    rw [tempProbs, getD_map_lt _ _ (by simpa using hj) _ 0, getD_map_lt _ _ hj _ 0]
    simp [Pi.div_apply])

/-- C6 (amended): for a positive input vector, the transformed probability
mass of the argmax entry is strictly larger at the lower of two positive
temperatures provided some entry is strictly below the argmax entry (for a
constant vector the transformed distribution is uniform at every
temperature, so the increase cannot be strict); and as the temperature grows
every transformed probability tends to the uniform value `1/len(preds)`. -/
theorem temperature_sharpens_and_flattens (preds : List ℝ)
    (hp : ∀ x ∈ preds, 0 < x) (hne : preds ≠ []) :
    (∀ T T' : ℝ, 0 < T' → T' < T →
      (∃ x ∈ preds, x < preds.getD (argmax preds) 0) →
      argmaxMass preds T < argmaxMass preds T') ∧
    (∀ j < preds.length,
      Tendsto (fun temperature => (tempProbs preds temperature).getD j 0) atTop
        (𝓝 (1 / (preds.length : ℝ)))) := by
  constructor
  · intro T T' hT' hTT' hex
    have hT : 0 < T := hT'.trans hTT'
    rw [argmaxMass_eq T hp hne, argmaxMass_eq T' hp hne]
    exact ratio_strict_mono hp hne (argmax_getD_ge preds) (inv_pos.2 hT)
      (inv_lt_inv_of_lt hT' hTT') hex
  · intro j hj
    exact tendsto_tempProbs_uniform hp hne hj

theorem temperature_sharpens_witness :
    (∀ x ∈ [(1 : ℝ), 3], 0 < x) ∧ [(1 : ℝ), 3] ≠ [] ∧
      argmaxMass [(1 : ℝ), 3] 2 < argmaxMass [(1 : ℝ), 3] 1 := by
  refine ⟨by norm_num, by simp, ?_⟩
  have hA3 : argmax [(3 : ℝ)] = 0 := by
    rw [argmax, if_pos]
    intro b hb
    simp at hb
  have hnall : ¬ ∀ b ∈ [(3 : ℝ)], b ≤ 1 := by
    push_neg
    exact ⟨3, by simp, by norm_num⟩
  have hA : argmax [(1 : ℝ), 3] = 1 := by
    rw [argmax, if_neg hnall, hA3]
  have hex : ∃ x ∈ [(1 : ℝ), 3], x < ([(1 : ℝ), 3]).getD (argmax [(1 : ℝ), 3]) 0 := by
    rw [hA]
    refine ⟨1, by simp, ?_⟩
    rw [List.getD_cons_succ, List.getD_cons_zero]
    norm_num
  exact (temperature_sharpens_and_flattens [(1 : ℝ), 3] (by norm_num) (by simp)).1
    2 1 (by norm_num) (by norm_num) hex

lemma expLogDiv_at_one (temperature : ℝ) : expLogDiv temperature 1 = 1 := by
  simp [expLogDiv]

lemma tempProbs_pair_ones (temperature : ℝ) :
    tempProbs [(1 : ℝ), 1] temperature = [1 / 2, 1 / 2] := by
  simp only [tempProbs, List.map_cons, List.map_nil, expLogDiv_at_one,
    List.sum_cons, List.sum_nil]
  norm_num

/-- C6 counterexample: for the constant positive vector `[1, 1]` the
transformed mass of the argmax entry equals `1/2` at every temperature, so
lowering the temperature from `2` to `1` does not strictly increase it — the
claim's unconditional strictness fails. -/
theorem temperature_sharpen_counterexample :
    ¬ argmaxMass [(1 : ℝ), 1] 2 < argmaxMass [(1 : ℝ), 1] 1 := by
  have hA : argmax [(1 : ℝ), 1] = 0 := by
    rw [argmax, if_pos]
    intro b hb
    simp at hb
    rw [hb]
  have hmass : ∀ temperature : ℝ, argmaxMass [(1 : ℝ), 1] temperature = 1 / 2 := by
    intro temperature
    rw [argmaxMass, tempProbs_pair_ones, hA, List.getD_cons_zero]
  rw [hmass 1, hmass 2]
  exact lt_irrefl _
